import Mathlib

/-!
Shallow embedding of `src/udf.py`: a PySpark column-expression library that
rebuilds a nested struct value along a dotted path (`update_struct`), maps a
leaf transform over every element of an array field (`F.transform` inside
`update_struct`), and coalesces a struct of alternative-typed fields into a
single primitive (`group_to_primitive`).

Column expressions are modelled as the nested values they denote: a tagged
union of typed null, typed opaque primitive, struct (ordered named fields)
and array.  Operations that Spark rejects at analysis time (for example
`getField` on a primitive, or `withField` on a non-struct) return `none`;
`none` models an invocation that fails.
-/

/-- Payload of an opaque primitive scalar. -/
inductive Scalar where
  | i (n : Int)
  | s (st : String)
  deriving DecidableEq

/-- A nested Spark value: typed null, typed primitive, struct with ordered
named fields, or array. -/
inductive Value where
  | vnull (tag : String)
  | prim (tag : String) (data : Scalar)
  | struct (fields : List (String × Value))
  | arr (elems : List Value)

/-- Whether a value is (a typed) null. -/
def isNull : Value → Bool
  | .vnull _ => true
  | _ => false

/-- Python `s.split(".")` on the character list: an empty input yields a
single empty segment, and every dot opens a new segment. -/
def split_chars : List Char → List String
  | [] => [""]
  | c :: rest =>
      let r := split_chars rest
      if c = '.' then "" :: r
      else
        match r with
        | [] => [String.mk [c]]
        | s :: ss => String.mk (c :: s.data) :: ss

/-- Python `remaining.split(".")`. -/
def split_dots (s : String) : List String := split_chars s.data

/-- Python `".".join(segments)`. -/
def join_dots (l : List String) : String := String.intercalate "." l

mutual

/-- Spark `Column.getField` / item extraction: looks a named field up in a
struct; on an array of structs it extracts the field from every element; on
any other value it is an analysis error (`none`). -/
def getField : Value → String → Option Value
  | .struct fs, n => field_lookup fs n
  | .arr es, n => (getFieldList es n).map Value.arr
  | _, _ => none

/-- First binding of a field name in an ordered field list. -/
def field_lookup : List (String × Value) → String → Option Value
  | [], _ => none
  | (k, v) :: rest, n => if k = n then some v else field_lookup rest n

/-- Elementwise `getField` over the elements of an array value. -/
def getFieldList : List Value → String → Option (List Value)
  | [], _ => some []
  | e :: es, n => do
      let v ← getField e n
      let vs ← getFieldList es n
      pure (v :: vs)

end

/-- Spark `Column.withField`: on a struct, replaces the named field in place
(preserving field order) or appends it when absent; on any other value it is
an analysis error (`none`). -/
def withField (v : Value) (n : String) (x : Value) : Option Value :=
  match v with
  | .struct fs =>
      if fs.any (fun p => p.1 = n) then
        some (.struct (fs.map (fun p => if p.1 = n then (n, x) else p)))
      else
        some (.struct (fs ++ [(n, x)]))
  | _ => none

/-- Applies a fallible function to every element of a list, failing if any
application fails (the effect of building one failing column expression). -/
def map_opt {α β : Type} (f : α → Option β) : List α → Option (List β)
  | [] => some []
  | a :: rest => do
      let b ← f a
      let bs ← map_opt f rest
      pure (b :: bs)

/-- Spark `F.transform`: maps a function over every element of an array
value; on any non-array value it is an analysis error (`none`). -/
def transform_arr (v : Value) (f : Value → Option Value) : Option Value :=
  match v with
  | .arr es => (map_opt f es).map Value.arr
  | _ => none

/-- Spark `F.lit` applied to a column expression is the identity. -/
def lit (col : Value) : Value := col

/-- Spark `Column.cast` to an opaque type tag: re-tags a primitive, turns a
null into a null of the target type, and is a type error on composites. -/
def cast_to (v : Value) (t : String) : Option Value :=
  match v with
  | .vnull _ => some (.vnull t)
  | .prim _ d => some (.prim t d)
  | .struct _ => none
  | .arr _ => none

/-- Spark `F.coalesce`: the first non-null argument, null when every
argument is null.  The callers below always pass a non-empty list; on the
empty list the result is an (immediately re-cast) untyped null. -/
def coalesce : List Value → Value
  | [] => .vnull ""
  | v :: vs => if isNull v then coalesce vs else v

/-- Python truthiness of the optional `array_path` string argument:
`None` and the empty string are falsy. -/
def truthy : Option String → Bool
  | none => false
  | some s => s ≠ ""

/-- `group_to_primitive` from `src/udf.py`: coalesces the fields of `col`
named by `types` and casts the result to the first type in the list.  The
`remaining` argument is accepted but unused, exactly as in the source.  An
empty `types` list is an error (`F.coalesce` needs at least one column and
`types[0]` would be out of range). -/
def group_to_primitive (col : Value) (remaining : String) (types : List String) :
    Option Value :=
  match types with
  | [] => none
  | t0 :: rest => do
      let fields ← map_opt (fun t => getField col t) (t0 :: rest)
      cast_to (lit (coalesce fields)) t0

/-- The recursive body of `update_struct` from `src/udf.py`, over the
segment list of the dotted path (each level of the source re-joins and
re-splits the tail, which round-trips because segments contain no dot).
The three branch conditions are the source conditions on
`_remaining = remaining.split(".")[1:]` and
`field_name = remaining.split(".")[0]`; the second branch tests Python
truthiness of `array_path`, the final branch tests `array_path is not None`.
The source never reaches an empty segment list because Python `str.split`
always returns at least one segment; that case is mapped to `none`. -/
def update_struct_go {α : Type} (struct_func : Value → String → α → Option Value)
    (array_path : Option String) (args : α) : List String → Value → Option Value
  | [], _ => none
  | field_name :: _remaining, col =>
    if h1 : 0 < _remaining.length ∧ 0 < field_name.length then
      do
        let inner ← getField col field_name
        let rec_res ← update_struct_go struct_func array_path args _remaining inner
        withField col field_name rec_res
    else if h2 : _remaining.length = 0 ∧ 0 < field_name.length ∧ truthy array_path then
      do
        let inner ← getField col field_name
        let rec_res ← update_struct_go struct_func array_path args [""] inner
        withField col field_name rec_res
    else
      match array_path with
      | some ap =>
          let a_field_name := (split_dots ap).headD ""
          let a_remaining := join_dots (split_dots ap).tail
          do
            let a ← getField col a_field_name
            let b ← transform_arr a (fun c => struct_func c a_remaining args)
            withField col a_field_name b
      | none =>
          do
            let fv ← getField col field_name
            let r ← struct_func fv field_name args
            withField col field_name r
termination_by segs _ => (segs.map String.length).sum + segs.length
decreasing_by
  · simp
    omega
  · simp
    omega

/-- `update_struct` from `src/udf.py`: entry point on the dotted path
string. -/
def update_struct {α : Type} (col : Value) (remaining : String)
    (struct_func : Value → String → α → Option Value)
    (array_path : Option String) (args : α) : Option Value :=
  update_struct_go struct_func array_path args (split_dots remaining) col

/-- `update_struct_go` with an explicit recursion-depth budget: `0` budget
returns `none`, every level consumes one unit.  Used to state and prove the
stack-depth bound of the traversal, and to evaluate concrete runs. -/
def update_struct_fuel {α : Type} (struct_func : Value → String → α → Option Value)
    (array_path : Option String) (args : α) : Nat → List String → Value → Option Value
  | 0, _, _ => none
  | _ + 1, [], _ => none
  | fuel + 1, field_name :: _remaining, col =>
    if h1 : 0 < _remaining.length ∧ 0 < field_name.length then
      do
        let inner ← getField col field_name
        let rec_res ← update_struct_fuel struct_func array_path args fuel _remaining inner
        withField col field_name rec_res
    else if h2 : _remaining.length = 0 ∧ 0 < field_name.length ∧ truthy array_path then
      do
        let inner ← getField col field_name
        let rec_res ← update_struct_fuel struct_func array_path args fuel [""] inner
        withField col field_name rec_res
    else
      match array_path with
      | some ap =>
          let a_field_name := (split_dots ap).headD ""
          let a_remaining := join_dots (split_dots ap).tail
          do
            let a ← getField col a_field_name
            let b ← transform_arr a (fun c => struct_func c a_remaining args)
            withField col a_field_name b
      | none =>
          do
            let fv ← getField col field_name
            let r ← struct_func fv field_name args
            withField col field_name r

/-- `struct_repl` from `src/udf.py`: replaces a field within a struct that
is contained within an array field, delegating to `update_struct` with
`group_to_primitive` as the leaf transform. -/
def struct_repl (col : Value) (remaining : String) (types : List String) :
    Option Value := do
  let _split := split_dots remaining
  let col_name := _split.headD ""
  let remaining_fields := join_dots _split.tail
  let inner ← getField col col_name
  let res ← update_struct inner remaining_fields group_to_primitive none types
  withField col col_name res

/-- Modelled from the spec: scenario A's leaf transform, increment-by-one on
a primitive integer value (used as `struct_func`). -/
def inc_leaf : Value → String → Unit → Option Value
  | .prim t (.i n), _, _ => some (.prim t (.i (n + 1)))
  | _, _, _ => none

/-- Modelled from the spec: scenario B's leaf transform, negating the value
addressed by the remaining sub-path inside each array element. -/
def neg_leaf : Value → String → Unit → Option Value :=
  fun c rem _ => do
    let v ← getField c rem
    match v with
    | .prim t (.i n) => withField c rem (.prim t (.i (-n)))
    | _ => none

/-- An identity leaf transform: returns the addressed value unchanged. -/
def id_leaf : Value → String → Unit → Option Value :=
  fun c _ _ => some c

/-! Helper lemmas shared by the claim theorems. -/

theorem opt_some_bind {α β : Type} (a : α) (f : α → Option β) :
    (some a >>= f) = f a := rfl

theorem opt_none_bind {α β : Type} (f : α → Option β) :
    ((none : Option α) >>= f) = none := rfl

theorem opt_bind_eq_some {α β : Type} {o : Option α} {f : α → Option β} {b : β} :
    (o >>= f) = some b ↔ ∃ a, o = some a ∧ f a = some b := by
  cases o with
  | none =>
      constructor
      · intro h
        exact absurd h (by simp [opt_none_bind])
      · rintro ⟨a, ha, _⟩
        exact absurd ha (by simp)
  | some a =>
      rw [opt_some_bind]
      constructor
      · intro h
        exact ⟨a, rfl, h⟩
      · rintro ⟨a2, ha2, hf⟩
        cases ha2
        exact hf

theorem fuel_terminal {α : Type} (f : Value → String → α → Option Value)
    (ap : Option String) (args : α) (fuel : Nat) (col : Value) :
    update_struct_fuel f ap args (fuel + 1) [""] col = update_struct_go f ap args [""] col := by
  rw [update_struct_go, update_struct_fuel]
  rfl

theorem go_eq_fuel {α : Type} (f : Value → String → α → Option Value)
    (ap : Option String) (args : α) (fuel : Nat) (segs : List String) (col : Value)
    (h : segs.length + 1 ≤ fuel) :
    update_struct_fuel f ap args fuel segs col = update_struct_go f ap args segs col := by
  induction fuel generalizing segs col with
  | zero => omega
  | succ fuel ih =>
    match segs with
    | [] => rw [update_struct_go, update_struct_fuel]
    | field_name :: _remaining =>
      rw [update_struct_go, update_struct_fuel]
      by_cases h1 : 0 < _remaining.length ∧ 0 < field_name.length
      · rw [dif_pos h1, dif_pos h1]
        cases hg : getField col field_name with
        | none => rfl
        | some inner =>
          have hlen : _remaining.length + 1 ≤ fuel := by
            simp only [List.length_cons] at h
            omega
          simp only [opt_some_bind, ih _remaining inner hlen]
      · rw [dif_neg h1, dif_neg h1]
        by_cases h2 : _remaining.length = 0 ∧ 0 < field_name.length ∧ truthy ap
        · rw [dif_pos h2, dif_pos h2]
          obtain ⟨k, rfl⟩ : ∃ k, fuel = k + 1 := by
            refine ⟨fuel - 1, ?_⟩
            simp only [List.length_cons] at h
            omega
          cases hg : getField col field_name with
          | none => rfl
          | some inner =>
            simp only [opt_some_bind, fuel_terminal]
        · rw [dif_neg h2, dif_neg h2]

theorem update_struct_eval {α : Type} (col : Value) (remaining : String)
    (f : Value → String → α → Option Value) (ap : Option String) (args : α)
    (res : Option Value)
    (h : update_struct_fuel f ap args ((split_dots remaining).length + 1)
          (split_dots remaining) col = res) :
    update_struct col remaining f ap args = res := by
  rw [update_struct, ← go_eq_fuel f ap args ((split_dots remaining).length + 1)
    (split_dots remaining) col (Nat.le_refl _)]
  exact h

theorem field_lookup_map_ne (fs : List (String × Value)) (n m : String) (x : Value)
    (hne : m ≠ n) :
    field_lookup (fs.map (fun p => if p.1 = n then (n, x) else p)) m = field_lookup fs m := by
  induction fs with
  | nil => rfl
  | cons p rest ih =>
    obtain ⟨k, v⟩ := p
    by_cases hk : k = n
    · subst hk
      rw [List.map_cons]
      simp only [eq_self_iff_true, if_true]
      rw [field_lookup, field_lookup]
      have hnm : ¬ k = m := fun hh => hne hh.symm
      rw [if_neg hnm, if_neg hnm]
      exact ih
    · simp only [List.map_cons, if_neg hk]
      rw [field_lookup, field_lookup]
      by_cases hkm : k = m
      · rw [if_pos hkm, if_pos hkm]
      · rw [if_neg hkm, if_neg hkm]
        exact ih

theorem field_lookup_append_ne (fs : List (String × Value)) (n m : String) (x : Value)
    (hne : m ≠ n) :
    field_lookup (fs ++ [(n, x)]) m = field_lookup fs m := by
  induction fs with
  | nil =>
    rw [List.nil_append, field_lookup, field_lookup]
    rw [if_neg (by intro hnm; exact hne hnm.symm)]
    rfl
  | cons p rest ih =>
    obtain ⟨k, v⟩ := p
    rw [List.cons_append, field_lookup, field_lookup]
    by_cases hkm : k = m
    · rw [if_pos hkm, if_pos hkm]
    · rw [if_neg hkm, if_neg hkm]
      exact ih

theorem withField_getField_ne (v : Value) (n : String) (x : Value) (r : Value) (m : String)
    (h : withField v n x = some r) (hne : m ≠ n) : getField r m = getField v m := by
  cases v with
  | struct fs =>
    rw [withField] at h
    by_cases hany : fs.any (fun p => p.1 = n)
    · rw [if_pos hany] at h
      cases h
      rw [getField, getField]
      exact field_lookup_map_ne fs n m x hne
    · rw [if_neg hany] at h
      cases h
      rw [getField, getField]
      exact field_lookup_append_ne fs n m x hne
  | vnull t => exact Option.noConfusion h
  | prim t d => exact Option.noConfusion h
  | arr es => exact Option.noConfusion h

/-! Concrete values used by the end-to-end scenarios and counterexamples. -/

/-- Scenario A input: the nested struct (written with a concrete integer
type tag) from the spec's end-to-end scenario A. -/
def scenario_a_root : Value :=
  .struct [("a", .struct [("b", .struct [("c", .prim "long" (.i 1)),
    ("d", .prim "long" (.i 2))])])]

/-- Scenario B input: a struct holding an array of one-field structs. -/
def scenario_b_root : Value :=
  .struct [("items", .arr [.struct [("x", .prim "long" (.i 1))],
    .struct [("x", .prim "long" (.i 2))]])]

/-- Scenario B expected output: every element's addressed field negated. -/
def scenario_b_result : Value :=
  .struct [("items", .arr [.struct [("x", .prim "long" (.i (-1)))],
    .struct [("x", .prim "long" (.i (-2)))]])]

/-- A one-field struct root used to probe the empty-path behaviour. -/
def c4_root : Value := .struct [("a", .prim "long" (.i 1))]

/-- A root with a nested array, used to probe a path with a trailing dot. -/
def c5_root : Value := .struct [("a", .struct [("items", .arr [.prim "long" (.i 1)])])]

/-- C7: end-to-end plain nested update.  For input root
a maps to (b maps to (c maps to 1, d maps to 2)), dotted path a.b.c, no
array path and the increment-by-one leaf, update_struct returns the same
struct with c incremented to 2 and d untouched. -/
theorem C7_scenario_a_nested_update :
    update_struct scenario_a_root "a.b.c" inc_leaf none ()
      = some (.struct [("a", .struct [("b", .struct [("c", .prim "long" (.i 2)),
          ("d", .prim "long" (.i 2))])])]) :=
  update_struct_eval _ _ _ _ _ _ rfl

/-- C3 counterexample: with dotted path items (as the claim states) the
traversal descends into the array itself and the struct operations on the
array value fail, so the call returns none, not the claimed broadcast
result. -/
theorem C3_counterexample_items_path_fails :
    update_struct scenario_b_root "items" neg_leaf (some "items.x") () = none ∧
    (none : Option Value) ≠ some scenario_b_result :=
  ⟨update_struct_eval _ _ _ _ _ _ rfl, fun h => Option.noConfusion h⟩

/-- C3 amended: the array broadcast of scenario B is produced by the empty
dotted path (the broadcast then happens at the root), with array path
items.x and the negate leaf: the output maps items to the array with every
x negated. -/
theorem C3_scenario_b_broadcast :
    update_struct scenario_b_root "" neg_leaf (some "items.x") ()
      = some scenario_b_result :=
  update_struct_eval _ _ _ _ _ _ rfl

/-- C9: the traversal of a path of n segments completes within n + 1
recursion levels: the fuel-bounded variant of the traversal, given budget
n + 1, agrees with the unbounded recursion on every input. -/
theorem C9_depth_bound {α : Type} (f : Value → String → α → Option Value)
    (ap : Option String) (args : α) (remaining : String) (col : Value) :
    update_struct_fuel f ap args ((split_dots remaining).length + 1)
        (split_dots remaining) col
      = update_struct col remaining f ap args := by
  rw [update_struct]
  exact go_eq_fuel f ap args ((split_dots remaining).length + 1)
    (split_dots remaining) col (Nat.le_refl _)

/-- C10: group_to_primitive never reads its remaining argument: any two
remaining strings give identical results. -/
theorem C10_remaining_unused (col : Value) (r1 r2 : String) (types : List String) :
    group_to_primitive col r1 types = group_to_primitive col r2 types := rfl

/-- C5 counterexample: the path with a trailing dot (an empty final
segment) is not rejected: with an array path present the call succeeds,
silently treating the empty segment as end-of-path. -/
theorem C5_counterexample_trailing_dot_accepted :
    split_dots "a." = ["a", ""] ∧
    update_struct c5_root "a." id_leaf (some "items.x") () = some c5_root :=
  ⟨rfl, update_struct_eval _ _ _ _ _ _ rfl⟩

/-- C5 amended: update_struct does not validate segments; an empty head
segment is treated exactly like the end of the path — the remaining
segments after it are ignored and the traversal behaves as on the
single-empty-segment path. -/
theorem C5_empty_segment_is_terminal {α : Type} (f : Value → String → α → Option Value)
    (ap : Option String) (args : α) (rest : List String) (col : Value) :
    update_struct_go f ap args ("" :: rest) col
      = update_struct_go f ap args [""] col := by
  rw [update_struct_go, update_struct_go]
  rw [dif_neg (fun hc => Nat.lt_irrefl 0 hc.2), dif_neg (fun hc => Nat.lt_irrefl 0 hc.2.1),
    dif_neg (fun hc => Nat.lt_irrefl 0 hc.2), dif_neg (fun hc => Nat.lt_irrefl 0 hc.2.1)]
  cases ap <;> rfl

/-- C4 counterexample: on the empty dotted path with no array path the
call does not return leaf(root): the identity leaf would give the root
back, but the code instead addresses a field with empty name and fails. -/
theorem C4_counterexample_empty_path_not_leaf_of_root :
    update_struct c4_root "" id_leaf none () = none ∧
    id_leaf c4_root "" () = some c4_root ∧
    (none : Option Value) ≠ some c4_root :=
  ⟨update_struct_eval _ _ _ _ _ _ rfl, rfl, fun h => Option.noConfusion h⟩

/-- C4 amended: the empty dotted path splits into the single empty segment,
so update_struct replaces the field named by the empty string; whenever the
root has no field with empty name the lookup fails and the whole call
returns none instead of applying the leaf to the root. -/
theorem C4_empty_path_fails {α : Type} (f : Value → String → α → Option Value)
    (args : α) (col : Value) (h : getField col "" = none) :
    update_struct col "" f none args = none := by
  refine update_struct_eval col "" f none args none ?_
  show (getField col "") >>= (fun fv => (f fv "" args) >>= fun r => withField col "" r) = none
  rw [h]
  rfl

/-- C4 witness: the amended theorem applied to a concrete one-field root. -/
theorem C4_witness :
    getField c4_root "" = none ∧ update_struct c4_root "" id_leaf none () = none :=
  ⟨rfl, C4_empty_path_fails id_leaf () c4_root rfl⟩

/-! Coalesce lemmas for the LeafCoalescer claims. -/

theorem coalesce_append_nulls (ns : List Value) (v : Value) (tl : List Value)
    (hns : ∀ u ∈ ns, isNull u = true) (hv : isNull v = false) :
    coalesce (ns ++ v :: tl) = v := by
  induction ns with
  | nil =>
    rw [List.nil_append, coalesce, hv, if_neg Bool.false_ne_true]
  | cons u rest ih =>
    rw [List.cons_append, coalesce, hns u (List.mem_cons_self u rest), if_pos rfl]
    exact ih (fun w hw => hns w (List.mem_cons_of_mem u hw))

theorem coalesce_all_nulls (vs : List Value) (h : ∀ u ∈ vs, isNull u = true) :
    isNull (coalesce vs) = true := by
  induction vs with
  | nil => rfl
  | cons u rest ih =>
    rw [coalesce, h u (List.mem_cons_self u rest), if_pos rfl]
    exact ih (fun w hw => h w (List.mem_cons_of_mem u hw))

/-- C2: group_to_primitive returns the first non-null field value, in the
given order of type tags, cast to the first (canonical) tag: whenever the
fields named by the tags evaluate to a prefix of nulls followed by a
non-null value v, the result is v cast to the canonical tag — in
particular, a primitive v of some other tag comes back re-typed with the
canonical tag, never its own. -/
theorem C2_coalesce_priority (col : Value) (t0 : String) (rest : List String)
    (remaining : String) (ns tl : List Value) (v : Value)
    (hfields : map_opt (fun t => getField col t) (t0 :: rest) = some (ns ++ v :: tl))
    (hns : ∀ u ∈ ns, isNull u = true)
    (hv : isNull v = false) :
    group_to_primitive col remaining (t0 :: rest) = cast_to v t0 ∧
    ∀ tag d, v = .prim tag d →
      group_to_primitive col remaining (t0 :: rest) = some (.prim t0 d) := by
  have hmain : group_to_primitive col remaining (t0 :: rest) = cast_to v t0 := by
    rw [group_to_primitive, hfields, opt_some_bind, coalesce_append_nulls ns v tl hns hv]
    rfl
  refine ⟨hmain, ?_⟩
  intro tag d hvd
  rw [hmain, hvd]
  rfl

/-- C2 witness: coalescing a struct whose first-tag field is null and whose
second-tag field holds the string x yields x re-typed with the first tag. -/
theorem C2_witness :
    group_to_primitive (.struct [("t1", .vnull "t1"), ("t2", .prim "t2" (.s "x"))])
        "value" ["t1", "t2"]
      = some (.prim "t1" (.s "x")) :=
  (C2_coalesce_priority (.struct [("t1", .vnull "t1"), ("t2", .prim "t2" (.s "x"))])
    "t1" ["t2"] "value" [.vnull "t1"] [] (.prim "t2" (.s "x"))
    rfl (by decide) rfl).2 "t2" (.s "x") rfl

/-- C6: when every field named by the type tags is null,
group_to_primitive does not fail: it returns null typed with the first
(canonical) tag. -/
theorem C6_all_null (col : Value) (t0 : String) (rest : List String)
    (remaining : String) (vs : List Value)
    (hfields : map_opt (fun t => getField col t) (t0 :: rest) = some vs)
    (hnull : ∀ u ∈ vs, isNull u = true) :
    group_to_primitive col remaining (t0 :: rest) = some (.vnull t0) := by
  rw [group_to_primitive, hfields, opt_some_bind]
  have hn := coalesce_all_nulls vs hnull
  obtain ⟨tag, htag⟩ : ∃ tag, coalesce vs = .vnull tag := by
    cases hc : coalesce vs with
    | vnull t => exact ⟨t, rfl⟩
    | prim t d => rw [hc] at hn; exact Bool.noConfusion hn
    | struct fs => rw [hc] at hn; exact Bool.noConfusion hn
    | arr es => rw [hc] at hn; exact Bool.noConfusion hn
  rw [htag]
  rfl

/-- C6 witness: both alternatives null gives null typed with the first tag. -/
theorem C6_witness :
    group_to_primitive (.struct [("t1", .vnull "t1"), ("t2", .vnull "t2")])
        "value" ["t1", "t2"]
      = some (.vnull "t1") :=
  C6_all_null (.struct [("t1", .vnull "t1"), ("t2", .vnull "t2")])
    "t1" ["t2"] "value" [.vnull "t1", .vnull "t2"] rfl (by decide)

/-! Pointwise specification of the array-broadcast step. -/

theorem map_opt_spec {α β : Type} (f : α → Option β) (as : List α) (bs : List β)
    (h : map_opt f as = some bs) :
    bs.length = as.length ∧
    ∀ i (ha : i < as.length) (hb : i < bs.length),
      f (as.get ⟨i, ha⟩) = some (bs.get ⟨i, hb⟩) := by
  induction as generalizing bs with
  | nil =>
    rw [map_opt] at h
    cases h
    exact ⟨rfl, fun i ha _ => absurd ha (Nat.not_lt_zero i)⟩
  | cons a rest ih =>
    rw [map_opt] at h
    rw [opt_bind_eq_some] at h
    obtain ⟨b, hfa, h⟩ := h
    rw [opt_bind_eq_some] at h
    obtain ⟨bs2, hrest, hcons⟩ := h
    cases hcons
    obtain ⟨ihlen, ihidx⟩ := ih bs2 hrest
    refine ⟨by rw [List.length_cons, List.length_cons, ihlen], ?_⟩
    intro i ha hb
    match i with
    | 0 => exact hfa
    | i + 1 =>
      exact ihidx i (Nat.lt_of_succ_lt_succ ha) (Nat.lt_of_succ_lt_succ hb)

/-- C8: the broadcast step (F.transform over an array with the leaf
applied to each element) preserves length and order, and element i of the
output is exactly the leaf applied to element i of the input — it depends
on no other element. -/
theorem C8_broadcast_pointwise {α : Type} (A : List Value) (subPath : String)
    (f : Value → String → α → Option Value) (args : α) (B : List Value)
    (h : transform_arr (.arr A) (fun c => f c subPath args) = some (.arr B)) :
    B.length = A.length ∧
    ∀ i (hA : i < A.length) (hB : i < B.length),
      f (A.get ⟨i, hA⟩) subPath args = some (B.get ⟨i, hB⟩) := by
  rw [transform_arr] at h
  cases hm : map_opt (fun c => f c subPath args) A with
  | none => rw [hm] at h; exact Option.noConfusion h
  | some B2 =>
    rw [hm] at h
    have hB2 : B2 = B := by
      have h2 : Value.arr B2 = Value.arr B := Option.some.inj h
      exact Value.arr.inj h2
    cases hB2
    exact map_opt_spec (fun c => f c subPath args) A _ hm

/-- C8 witness: broadcasting increment-by-one over a one-element array. -/
theorem C8_witness :
    ([.prim "long" (.i 2)] : List Value).length
        = ([.prim "long" (.i 1)] : List Value).length ∧
    inc_leaf (([.prim "long" (.i 1)] : List Value).get ⟨0, Nat.zero_lt_one⟩) "x" ()
        = some (([.prim "long" (.i 2)] : List Value).get ⟨0, Nat.zero_lt_one⟩) :=
  ⟨(C8_broadcast_pointwise [.prim "long" (.i 1)] "x" inc_leaf ()
      [.prim "long" (.i 2)] rfl).1,
   (C8_broadcast_pointwise [.prim "long" (.i 1)] "x" inc_leaf ()
      [.prim "long" (.i 2)] rfl).2 0 Nat.zero_lt_one Nat.zero_lt_one⟩

/-! Sibling preservation of the traversal. -/

theorem go_sibling {α : Type} (f : Value → String → α → Option Value)
    (ap : Option String) (args : α) (segs : List String) (col r : Value) (fld : String)
    (hres : update_struct_go f ap args segs col = some r)
    (hhead : fld ≠ segs.headD "")
    (hap : ∀ s, ap = some s → fld ≠ (split_dots s).headD "") :
    getField r fld = getField col fld := by
  match segs with
  | [] =>
    rw [update_struct_go] at hres
    exact Option.noConfusion hres
  | field_name :: _remaining =>
    have hfn : fld ≠ field_name := hhead
    rw [update_struct_go] at hres
    by_cases h1 : 0 < _remaining.length ∧ 0 < field_name.length
    · rw [dif_pos h1] at hres
      simp only [opt_bind_eq_some] at hres
      obtain ⟨inner, hg, rec_res, hrec, hw⟩ := hres
      exact withField_getField_ne col field_name rec_res r fld hw hfn
    · rw [dif_neg h1] at hres
      by_cases h2 : _remaining.length = 0 ∧ 0 < field_name.length ∧ truthy ap
      · rw [dif_pos h2] at hres
        simp only [opt_bind_eq_some] at hres
        obtain ⟨inner, hg, rec_res, hrec, hw⟩ := hres
        exact withField_getField_ne col field_name rec_res r fld hw hfn
      · rw [dif_neg h2] at hres
        cases ap with
        | none =>
          simp only [opt_bind_eq_some] at hres
          obtain ⟨fv, hg, r2, hr2, hw⟩ := hres
          exact withField_getField_ne col field_name r2 r fld hw hfn
        | some s =>
          simp only [opt_bind_eq_some] at hres
          obtain ⟨a, hg, b, hb, hw⟩ := hres
          exact withField_getField_ne col ((split_dots s).headD "") b r fld hw (hap s rfl)

/-- C1 amended: whenever update_struct returns a struct, every field other
than the head segment of the path — and other than the head segment of the
array path, when one is supplied — maps to exactly the same value as in the
input.  (The claim as stated, with only the head of the main path excluded,
fails: when the head segment is empty and an array path is present, the
replaced field is the head of the array path.) -/
theorem C1_sibling_preservation {α : Type} (f : Value → String → α → Option Value)
    (ap : Option String) (args : α) (col r : Value) (p fld : String)
    (hres : update_struct col p f ap args = some r)
    (hfld : fld ≠ (split_dots p).headD "")
    (hap : ∀ s, ap = some s → fld ≠ (split_dots s).headD "") :
    getField r fld = getField col fld := by
  rw [update_struct] at hres
  exact go_sibling f ap args (split_dots p) col r fld hres hfld hap

/-- C1 counterexample: with the empty path and array path items.x, the
field items of the root is modified even though items is not the head
segment of the (empty) path — the claim's frame condition, which only
excludes the head of the main path, does not hold. -/
theorem C1_counterexample_array_head_modified :
    "items" ≠ (split_dots "").headD "" ∧
    update_struct scenario_b_root "" neg_leaf (some "items.x") ()
      = some scenario_b_result ∧
    getField scenario_b_result "items" ≠ getField scenario_b_root "items" := by
  refine ⟨by decide, update_struct_eval _ _ _ _ _ _ rfl, ?_⟩
  intro h
  rw [show getField scenario_b_result "items"
        = some (.arr [.struct [("x", .prim "long" (.i (-1)))],
            .struct [("x", .prim "long" (.i (-2)))]]) from rfl,
      show getField scenario_b_root "items"
        = some (.arr [.struct [("x", .prim "long" (.i 1))],
            .struct [("x", .prim "long" (.i 2))]]) from rfl] at h
  have h1 := Value.arr.inj (Option.some.inj h)
  have h2 := List.cons.inj h1
  have h3 := Value.struct.inj h2.1
  have h4 := List.cons.inj h3
  have h5 := congrArg Prod.snd h4.1
  have h6 := Value.prim.inj h5
  have h7 := Scalar.i.inj h6.2
  exact absurd h7 (by decide)

/-- Scenario A root extended with an extra top-level sibling field z. -/
def c1_witness_root : Value :=
  .struct [("a", .struct [("b", .struct [("c", .prim "long" (.i 1)),
    ("d", .prim "long" (.i 2))])]), ("z", .prim "long" (.i 9))]

/-- Result of the scenario A update on the extended root. -/
def c1_witness_result : Value :=
  .struct [("a", .struct [("b", .struct [("c", .prim "long" (.i 2)),
    ("d", .prim "long" (.i 2))])]), ("z", .prim "long" (.i 9))]

/-- C1 witness: the amended sibling-preservation theorem applied to the
concrete scenario A update, for the sibling field z. -/
theorem C1_witness :
    update_struct c1_witness_root "a.b.c" inc_leaf none () = some c1_witness_result ∧
    getField c1_witness_result "z" = getField c1_witness_root "z" :=
  ⟨update_struct_eval _ _ _ _ _ _ rfl,
   C1_sibling_preservation inc_leaf none () c1_witness_root c1_witness_result
     "a.b.c" "z" (update_struct_eval _ _ _ _ _ _ rfl) (by decide)
     (fun s hs => Option.noConfusion hs)⟩
